import Mathlib

/-!
Shallow embedding of the BB84 key-distribution notebook
(`2.1_BB84_Protocol.ipynb`).

The notebook is a linear script over `num_bits` qubits:

* `encode_gates = {0: cirq.I, 1: cirq.X}` and `basis_gates = {'Z': cirq.I, 'X': cirq.H}`;
* Alice draws `alice_key = choices([0,1], k=num_bits)` and
  `alice_bases = choices(['X','Z'], k=num_bits)`, and appends
  `encode_gate(qubit)` then `basis_gate(qubit)` per qubit;
* Bob draws `bob_bases`, appends his `basis_gate(qubit)` per qubit, then
  measures every qubit in the computational basis;
* the combined circuit is simulated once (`sim.run(bb84_circuit)`), giving
  `bob_key`;
* reconciliation keeps `alice_key[bit]` / `bob_key[bit]` at indices where
  `alice_bases[bit] == bob_bases[bit]`;
* the final cell compares `final_alice_key[0]` with `final_bob_key[0]` and
  either drops the first element of both lists or prints an eavesdropping
  warning, leaving the lists untouched.

The quantum part of the script acts on each qubit independently (every gate
is a single-qubit gate and the measurement is per-qubit in the computational
basis), so the simulator's joint outcome distribution factorises into
independent per-qubit distributions.  We embed one qubit as a vector of
unnormalised rational amplitudes; the Hadamard gate is taken without its
global `1/sqrt 2` factor, which rescales the state by a positive factor and
leaves the Born-rule distribution (computed with explicit normalisation in
`probOutcome`) unchanged.  Sampling a measurement draws a uniform rational
`u` in `[0,1)` and returns outcome `false` exactly when `u < P(false)`.

Randomness (Alice's bits and bases, Bob's bases, the simulator's measurement
draws) is passed in explicitly as streams in a `RandomSource`; a seeded run
corresponds to a fixed `RandomSource`.
-/

namespace BB84

/-- Encoding/measurement basis: `Z` (rectilinear) or `X` (diagonal), the keys
of the notebook's `basis_gates = {'Z': cirq.I, 'X': cirq.H}`. -/
inductive Basis where
  | Z
  | X
deriving DecidableEq

/-- Single-qubit state as unnormalised rational amplitudes: `v b` is the
amplitude of the computational-basis vector `|b⟩`. -/
def QState : Type := Bool → ℚ

/-- The identity gate `cirq.I`. -/
def gateI (v : QState) : QState := v

/-- The bit-flip gate `cirq.X`: swaps the two amplitudes. -/
def gateX (v : QState) : QState := fun b => v (!b)

/-- The Hadamard gate `cirq.H` without its global `1/sqrt 2` factor:
`H |0⟩ ∝ |0⟩ + |1⟩`, `H |1⟩ ∝ |0⟩ - |1⟩`.  Dropping the scalar factor does
not change the normalised measurement distribution. -/
def gateH (v : QState) : QState :=
  fun b => if b then v false - v true else v false + v true

/-- The notebook's `encode_gates = {0: cirq.I, 1: cirq.X}`. -/
def encode_gates (bit : Bool) : QState → QState :=
  if bit then gateX else gateI

/-- The notebook's `basis_gates = {'Z': cirq.I, 'X': cirq.H}`. -/
def basis_gates : Basis → QState → QState
  | .Z => gateI
  | .X => gateH

/-- The default initial state `|0⟩` of every qubit. -/
def qZero : QState := fun b => if b then 0 else 1

/-- State of one qubit just before Bob's measurement: Alice's encode gate and
basis gate, then Bob's basis gate, applied to `|0⟩` — the per-qubit content
of `bb84_circuit = alice_cirquit + bob_circuit`. -/
def qubitFinal (aBit : Bool) (aBasis bBasis : Basis) : QState :=
  basis_gates bBasis (basis_gates aBasis (encode_gates aBit qZero))

/-- Born-rule probability of measuring outcome `b`, with explicit
normalisation of the (unnormalised) amplitudes. -/
def probOutcome (v : QState) (b : Bool) : ℚ :=
  (v b) ^ 2 / ((v false) ^ 2 + (v true) ^ 2)

/-- Sample a computational-basis measurement of `v` using a uniform draw
`u ∈ [0,1)`: outcome `false` exactly when `u < P(false)`. -/
def measureWith (u : ℚ) (v : QState) : Bool :=
  decide (probOutcome v false ≤ u)

/-- All random draws of one run, made explicit: Alice's bit stream and basis
stream (`choices([0,1], ...)`, `choices(['X','Z'], ...)`), Bob's basis
stream, and the simulator's uniform `[0,1)` draws used to sample each
qubit's measurement.  A fixed seed fixes one such source. -/
structure RandomSource where
  bits : ℕ → Bool
  aBases : ℕ → Basis
  bBases : ℕ → Basis
  u : ℕ → ℚ

/-- The measurement draws really are uniform draws from `[0,1)`. -/
def ValidSource (r : RandomSource) : Prop :=
  ∀ i, 0 ≤ r.u i ∧ r.u i < 1

/-- Bob's measured bit for qubit `i`: sample the final state of qubit `i`
with the simulator's `i`-th uniform draw.  This is entry `i` of
`bob_key = results.measurements['bob_key'][0]`. -/
def bobBit (r : RandomSource) (i : ℕ) : Bool :=
  measureWith (r.u i) (qubitFinal (r.bits i) (r.aBases i) (r.bBases i))

/-- The reconciliation loop of the notebook: starting from two empty lists,
`for bit in range(num_bits): if alice_bases[bit] == bob_bases[bit]:` append
`alice_key[bit]` to the first list and `bob_key[bit]` to the second. -/
def reconcile (n : ℕ) (aB bB : ℕ → Basis) (aK bK : ℕ → Bool) :
    List Bool × List Bool :=
  (List.range n).foldl
    (fun acc bit =>
      if aB bit = bB bit then (acc.1 ++ [aK bit], acc.2 ++ [bK bit]) else acc)
    ([], [])

/-- The Python exception raised by `final_alice_key[0]` on an empty list. -/
inductive BB84Error where
  | indexError
deriving DecidableEq

/-- Outcome of the final cell: either the keys are usable (first sifted bits
agreed; the keys with that bit removed are carried) or eavesdropping is
suspected — the `Compromised` branch carries no key. -/
inductive RunResult where
  | Secure (alice_key bob_key : List Bool)
  | Compromised
deriving DecidableEq

/-- The final cell of the notebook.  It reads `final_alice_key[0]` and
`final_bob_key[0]` — raising `IndexError` when the list is empty — and on
equality rebinds both lists to their tails; on inequality it only prints,
leaving both lists unchanged.  Returns the branch taken together with the
final values of the variables `final_alice_key` and `final_bob_key`. -/
def checkStep (final_alice_key final_bob_key : List Bool) :
    Except BB84Error (RunResult × List Bool × List Bool) :=
  match final_alice_key with
  | [] => .error .indexError
  | a0 :: aRest =>
    match final_bob_key with
    | [] => .error .indexError
    | b0 :: bRest =>
      if a0 = b0 then .ok (.Secure aRest bRest, aRest, bRest)
      else .ok (.Compromised, a0 :: aRest, b0 :: bRest)

/-- Alice's sifted key: first component of the reconciliation loop. -/
def siftedAlice (n : ℕ) (r : RandomSource) : List Bool :=
  (reconcile n r.aBases r.bBases r.bits (bobBit r)).1

/-- Bob's sifted key: second component of the reconciliation loop. -/
def siftedBob (n : ℕ) (r : RandomSource) : List Bool :=
  (reconcile n r.aBases r.bBases r.bits (bobBit r)).2

/-- One whole run of the notebook on `n` qubits with explicit randomness:
generate, transmit and measure, reconcile, then run the final check cell. -/
def run (n : ℕ) (r : RandomSource) :
    Except BB84Error (RunResult × List Bool × List Bool) :=
  checkStep (siftedAlice n r) (siftedBob n r)

/-! Helper lemmas about the per-qubit measurement distribution. -/

/-- When both parties use the same basis, the prepared bit is recovered with
probability `1`. -/
lemma probOutcome_match_self (a : Bool) (basis : Basis) :
    probOutcome (qubitFinal a basis basis) a = 1 := by
  cases basis <;> cases a <;>
    norm_num [probOutcome, qubitFinal, basis_gates, encode_gates, gateI,
      gateX, gateH, qZero]

/-- When both parties use the same basis, the probability of outcome `false`
is `1` if the prepared bit is `false` and `0` if it is `true`. -/
lemma probOutcome_match_false (a : Bool) (basis : Basis) :
    probOutcome (qubitFinal a basis basis) false = if a then 0 else 1 := by
  cases basis <;> cases a <;>
    norm_num [probOutcome, qubitFinal, basis_gates, encode_gates, gateI,
      gateX, gateH, qZero]

/-- With matching bases, sampling with any draw `u ∈ [0,1)` returns exactly
the prepared bit. -/
lemma measure_match (a : Bool) (basis : Basis) (u : ℚ)
    (h0 : 0 ≤ u) (h1 : u < 1) :
    measureWith u (qubitFinal a basis basis) = a := by
  cases a
  · have hnot : ¬ probOutcome (qubitFinal false basis basis) false ≤ u := by
      rw [probOutcome_match_false]
      simpa using by linarith
    simp [measureWith, hnot]
  · have hle : probOutcome (qubitFinal true basis basis) false ≤ u := by
      rw [probOutcome_match_false]
      simpa using h0
    simp [measureWith, hle]

/-- With mismatched bases, every outcome has probability `1/2`, whatever bit
was prepared. -/
lemma probOutcome_mismatch (a b : Bool) (b1 b2 : Basis) (hb : b1 ≠ b2) :
    probOutcome (qubitFinal a b1 b2) b = 1 / 2 := by
  cases b1 <;> cases b2 <;> first
  | exact absurd rfl hb
  | cases a <;> cases b <;>
      norm_num [probOutcome, qubitFinal, basis_gates, encode_gates, gateI,
        gateX, gateH, qZero]

/-! Helper lemmas about reconciliation and the final check cell. -/

/-- Unrolling the reconciliation fold from an arbitrary accumulator. -/
lemma reconcile_foldl (aB bB : ℕ → Basis) (aK bK : ℕ → Bool) :
    ∀ (l : List ℕ) (acc : List Bool × List Bool),
      l.foldl
        (fun acc bit =>
          if aB bit = bB bit then (acc.1 ++ [aK bit], acc.2 ++ [bK bit])
          else acc)
        acc =
      (acc.1 ++ (l.filter fun i => decide (aB i = bB i)).map aK,
       acc.2 ++ (l.filter fun i => decide (aB i = bB i)).map bK) := by
  intro l
  induction l with
  | nil => intro acc; simp
  | cons i t ih =>
    intro acc
    by_cases h : aB i = bB i
    · simp [List.foldl_cons, List.filter_cons, h, ih]
    · simp [List.foldl_cons, List.filter_cons, h, ih]

/-- The reconciliation loop keeps exactly the bits at indices with matching
bases, in original index order. -/
lemma reconcile_eq (n : ℕ) (aB bB : ℕ → Basis) (aK bK : ℕ → Bool) :
    reconcile n aB bB aK bK =
      (((List.range n).filter fun i => decide (aB i = bB i)).map aK,
       ((List.range n).filter fun i => decide (aB i = bB i)).map bK) := by
  simpa using reconcile_foldl aB bB aK bK (List.range n) ([], [])

/-- In the noiseless model with genuine `[0,1)` draws, Bob's sifted key is
(element-wise) Alice's sifted key: each retained index has matching bases,
where the measurement deterministically recovers Alice's bit. -/
lemma siftedBob_eq_siftedAlice (n : ℕ) (r : RandomSource)
    (hv : ValidSource r) : siftedBob n r = siftedAlice n r := by
  rw [siftedAlice, siftedBob, reconcile_eq]
  apply List.map_congr_left
  intro i hi
  have hb : r.aBases i = r.bBases i := by
    have := List.of_mem_filter hi
    simpa using this
  rw [bobBit, ← hb]
  exact measure_match (r.bits i) (r.aBases i) (r.u i) (hv i).1 (hv i).2

/-- The check cell on two equal non-empty lists takes the secure branch and
drops the shared first element. -/
lemma checkStep_self (l : List Bool) (hne : l ≠ []) :
    checkStep l l = .ok (.Secure l.tail l.tail, l.tail, l.tail) := by
  cases l with
  | nil => exact absurd rfl hne
  | cons a t => simp [checkStep]

/-! Concrete inputs of the seeded notebook run (`num_bits = 10`). -/

/-- The notebook run's `alice_key = [0, 0, 0, 1, 0, 0, 0, 1, 0, 1]`, as a
stream. -/
def exAliceKey : ℕ → Bool :=
  fun i =>
    [false, false, false, true, false, false, false, true, false,
      true].getD i false

/-- The notebook run's `alice_bases = ['X','Z','X','Z','Z','Z','X','Z','X','Z']`. -/
def exAliceBases : ℕ → Basis :=
  fun i =>
    [Basis.X, Basis.Z, Basis.X, Basis.Z, Basis.Z, Basis.Z, Basis.X, Basis.Z,
      Basis.X, Basis.Z].getD i Basis.Z

/-- The notebook run's `bob_bases = ['X','Z','X','X','Z','X','X','Z','Z','Z']`. -/
def exBobBases : ℕ → Basis :=
  fun i =>
    [Basis.X, Basis.Z, Basis.X, Basis.X, Basis.Z, Basis.X, Basis.X, Basis.Z,
      Basis.Z, Basis.Z].getD i Basis.Z

/-- The notebook run's random draws, with an arbitrary stream of measurement
draws `u`. -/
def exSource (u : ℕ → ℚ) : RandomSource :=
  ⟨exAliceKey, exAliceBases, exBobBases, u⟩

/-- A one-qubit source whose bases match (both `Z`), used to exhibit a
secure run. -/
def secureSource : RandomSource :=
  ⟨fun _ => false, fun _ => Basis.Z, fun _ => Basis.Z, fun _ => 0⟩

/-- A one-qubit source whose bases never match (`X` vs `Z`), so that the
sifted keys are empty. -/
def mismatchSource : RandomSource :=
  ⟨fun _ => false, fun _ => Basis.X, fun _ => Basis.Z, fun _ => 0⟩

/-- The constant-zero measurement stream is a valid uniform draw stream. -/
lemma exSource_zero_valid : ValidSource (exSource fun _ => 0) :=
  fun _ => ⟨le_refl 0, by norm_num [exSource]⟩

/-- `secureSource` has valid measurement draws. -/
lemma secureSource_valid : ValidSource secureSource :=
  fun _ => ⟨le_refl 0, by norm_num [secureSource]⟩

/-! The claims. -/

/-- C2.  For every qubit index at which Alice's basis equals Bob's basis,
Bob's measured bit equals Alice's prepared bit, and the prepared bit is
measured with probability `1`, under the noiseless simulation of the
combined encode-then-measure circuit. -/
theorem matching_basis_recovers_bit (r : RandomSource) (i : ℕ)
    (h0 : 0 ≤ r.u i) (h1 : r.u i < 1) (hb : r.aBases i = r.bBases i) :
    bobBit r i = r.bits i ∧
      probOutcome (qubitFinal (r.bits i) (r.aBases i) (r.bBases i))
        (r.bits i) = 1 := by
  constructor
  · rw [bobBit, ← hb]
    exact measure_match (r.bits i) (r.aBases i) (r.u i) h0 h1
  · rw [← hb]
    exact probOutcome_match_self (r.bits i) (r.aBases i)

/-- Witness for C2 at qubit 0 of the notebook's seeded run, where both
parties chose basis `X`. -/
theorem matching_basis_recovers_bit_witness :
    (0 ≤ (exSource fun _ => 0).u 0 ∧ (exSource fun _ => 0).u 0 < 1 ∧
        (exSource fun _ => 0).aBases 0 = (exSource fun _ => 0).bBases 0) ∧
      (bobBit (exSource fun _ => 0) 0 = (exSource fun _ => 0).bits 0 ∧
        probOutcome
          (qubitFinal ((exSource fun _ => 0).bits 0)
            ((exSource fun _ => 0).aBases 0) ((exSource fun _ => 0).bBases 0))
          ((exSource fun _ => 0).bits 0) = 1) :=
  ⟨⟨le_refl 0, by norm_num [exSource], rfl⟩,
    matching_basis_recovers_bit (exSource fun _ => 0) 0 (le_refl 0)
      (by norm_num [exSource]) rfl⟩

/-- C3.  At a mismatched-basis index the measured bit is uniform over
`{0,1}` — each outcome has probability `1/2` whatever bit Alice prepared —
and as a sampled value it is a function of the measurement draw alone:
changing Alice's bit does not change the outcome obtained from the same
draw. -/
theorem mismatched_basis_uniform_independent (a a' b : Bool)
    (b1 b2 : Basis) (u : ℚ) (hb : b1 ≠ b2) :
    probOutcome (qubitFinal a b1 b2) b = 1 / 2 ∧
      measureWith u (qubitFinal a b1 b2) =
        measureWith u (qubitFinal a' b1 b2) := by
  refine ⟨probOutcome_mismatch a b b1 b2 hb, ?_⟩
  simp only [measureWith]
  rw [probOutcome_mismatch a false b1 b2 hb,
    probOutcome_mismatch a' false b1 b2 hb]

/-- Witness for C3: Alice encodes in `Z`, Bob measures in `X`, with draw
`u = 1/3`; flipping Alice's bit from `0` to `1` changes nothing. -/
theorem mismatched_basis_uniform_independent_witness :
    (Basis.Z ≠ Basis.X) ∧
      (probOutcome (qubitFinal false Basis.Z Basis.X) false = 1 / 2 ∧
        measureWith (1 / 3) (qubitFinal false Basis.Z Basis.X) =
          measureWith (1 / 3) (qubitFinal true Basis.Z Basis.X)) :=
  ⟨by decide,
    mismatched_basis_uniform_independent false true false Basis.Z Basis.X
      (1 / 3) (by decide)⟩

/-- C4.  After basis reconciliation the two sifted keys have equal length,
that length is the number of indices where the basis lists agree, and both
sifted keys are the retained bits in original index order. -/
theorem sifted_keys_length_and_order (n : ℕ) (aB bB : ℕ → Basis)
    (aK bK : ℕ → Bool) :
    (reconcile n aB bB aK bK).1.length = (reconcile n aB bB aK bK).2.length ∧
      (reconcile n aB bB aK bK).1.length =
        ((List.range n).filter fun i => decide (aB i = bB i)).length ∧
      (reconcile n aB bB aK bK).1 =
        ((List.range n).filter fun i => decide (aB i = bB i)).map aK ∧
      (reconcile n aB bB aK bK).2 =
        ((List.range n).filter fun i => decide (aB i = bB i)).map bK := by
  simp [reconcile_eq]

/-- C9.  Whenever the sifted keys are non-empty and their first elements
differ, the check cell takes the `Compromised` branch — a result variant
that carries no key for either party. -/
theorem first_bits_unequal_compromised (a0 b0 : Bool)
    (aRest bRest : List Bool) (h : a0 ≠ b0) :
    (checkStep (a0 :: aRest) (b0 :: bRest)).toOption.map Prod.fst =
      some RunResult.Compromised := by
  simp [checkStep, h, Except.toOption]

/-- Witness for C9 on sifted keys `[1]` vs `[0]`. -/
theorem first_bits_unequal_compromised_witness :
    (true ≠ false) ∧
      (checkStep [true] [false]).toOption.map Prod.fst =
        some RunResult.Compromised :=
  ⟨by decide, first_bits_unequal_compromised true false [] [] (by decide)⟩

/-- C10.  In the eavesdropping-suspected branch the check cell leaves both
parties' sifted key lists unchanged: the final values of `final_alice_key`
and `final_bob_key` are still the full sifted sequences, mismatched first
bits included. -/
theorem compromised_branch_preserves_keys (a0 b0 : Bool)
    (aRest bRest : List Bool) (h : a0 ≠ b0) :
    checkStep (a0 :: aRest) (b0 :: bRest) =
      .ok (.Compromised, a0 :: aRest, b0 :: bRest) := by
  simp [checkStep, h]

/-- Witness for C10 on sifted keys `[0,1]` vs `[1,1]`. -/
theorem compromised_branch_preserves_keys_witness :
    (false ≠ true) ∧
      checkStep [false, true] [true, true] =
        .ok (.Compromised, [false, true], [true, true]) :=
  ⟨by decide,
    compromised_branch_preserves_keys false true [true] [true] (by decide)⟩

/-- C6 (code bug).  When the sifted key is empty the final cell does not
return an `Inconclusive` value: evaluating `final_alice_key[0]` raises
`IndexError`, whatever Bob's list holds. -/
theorem empty_sifted_key_crashes (final_bob_key : List Bool) :
    checkStep [] final_bob_key = Except.error BB84Error.indexError := rfl

/-- C8 (code bug).  A run on one qubit whose bases never match does not
complete with a result variant: the sifted keys are empty and the final
cell raises `IndexError`.  (The script also has no `num_qubits` validation
at all: `num_bits` is a hard-coded constant.) -/
theorem no_matching_bases_run_errors :
    run 1 mismatchSource = Except.error BB84Error.indexError := rfl

/-- C1.  Whenever the run takes the secure branch in the noiseless,
eavesdropper-free model, the final keys are element-wise equal and their
length is the sifted-key length minus one. -/
theorem secure_result_equality (n : ℕ) (r : RandomSource)
    (ka kb fa fb : List Bool) (hv : ValidSource r)
    (h : run n r = Except.ok (RunResult.Secure ka kb, fa, fb)) :
    ka = kb ∧ ka.length = (siftedAlice n r).length - 1 := by
  rw [run, siftedBob_eq_siftedAlice n r hv] at h
  rcases hl : siftedAlice n r with _ | ⟨a, t⟩
  · rw [hl] at h
    simp [checkStep] at h
  · rw [hl, checkStep_self (a :: t) (List.cons_ne_nil a t)] at h
    simp only [List.tail_cons, Except.ok.injEq, Prod.mk.injEq,
      RunResult.Secure.injEq] at h
    obtain ⟨⟨hka, hkb⟩, -, -⟩ := h
    subst hka
    subst hkb
    simp [hl]

/-- A secure one-qubit run: both bases are `Z`, so the single bit is sifted,
the first (and only) sifted bits agree, and the final keys are empty. -/
lemma secureSource_run :
    run 1 secureSource = Except.ok (RunResult.Secure [] [], [], []) := by
  have hsa : siftedAlice 1 secureSource = [false] := by
    simp only [siftedAlice]
    rw [reconcile_eq]
    rfl
  rw [run, siftedBob_eq_siftedAlice 1 secureSource secureSource_valid, hsa,
    checkStep_self [false] (List.cons_ne_nil false [])]
  rfl

/-- Witness for C1 on the secure one-qubit run. -/
theorem secure_result_equality_witness :
    (ValidSource secureSource ∧
        run 1 secureSource = Except.ok (RunResult.Secure [] [], [], [])) ∧
      (([] : List Bool) = ([] : List Bool) ∧
        ([] : List Bool).length = (siftedAlice 1 secureSource).length - 1) :=
  ⟨⟨secureSource_valid, secureSource_run⟩,
    secure_result_equality 1 secureSource [] [] [] [] secureSource_valid
      secureSource_run⟩

/-- C7.  With randomness made explicit, the run is a deterministic function
of the qubit count and the random source fixed by the seed: equal sources
yield identical Alice bits, identical bases on both sides, identical Bob
measurement outcomes, and the same result. -/
theorem run_deterministic_in_seed (n : ℕ) (r1 r2 : RandomSource)
    (h : r1 = r2) :
    (List.range n).map r1.bits = (List.range n).map r2.bits ∧
      (List.range n).map r1.aBases = (List.range n).map r2.aBases ∧
      (List.range n).map r1.bBases = (List.range n).map r2.bBases ∧
      (List.range n).map (bobBit r1) = (List.range n).map (bobBit r2) ∧
      run n r1 = run n r2 := by
  subst h
  exact ⟨rfl, rfl, rfl, rfl, rfl⟩

/-- Witness for C7 on the notebook's seeded 10-qubit source. -/
theorem run_deterministic_in_seed_witness :
    (exSource fun _ => 0) = (exSource fun _ => 0) ∧
      ((List.range 10).map (exSource fun _ => 0).bits =
          (List.range 10).map (exSource fun _ => 0).bits ∧
        (List.range 10).map (exSource fun _ => 0).aBases =
          (List.range 10).map (exSource fun _ => 0).aBases ∧
        (List.range 10).map (exSource fun _ => 0).bBases =
          (List.range 10).map (exSource fun _ => 0).bBases ∧
        (List.range 10).map (bobBit (exSource fun _ => 0)) =
          (List.range 10).map (bobBit (exSource fun _ => 0)) ∧
        run 10 (exSource fun _ => 0) = run 10 (exSource fun _ => 0)) :=
  ⟨rfl,
    run_deterministic_in_seed 10 (exSource fun _ => 0) (exSource fun _ => 0)
      rfl⟩

/-- C5 counterexample.  On the notebook's seeded inputs the matching-basis
indices are `{0,1,2,4,6,7,9}` (index 6 matches, index 8 does not), so the
sifted Alice key is `[0,0,0,0,0,1,1]` and not the claimed `[0,0,0,0,1,0,1]`. -/
theorem example_run_counterexample :
    ((List.range 10).filter fun i => decide (exAliceBases i = exBobBases i)) =
        [0, 1, 2, 4, 6, 7, 9] ∧
      siftedAlice 10 (exSource fun _ => 0) =
        [false, false, false, false, false, true, true] ∧
      siftedAlice 10 (exSource fun _ => 0) ≠
        [false, false, false, false, true, false, true] := by
  refine ⟨by decide, ?_, ?_⟩
  · simp only [siftedAlice]
    rw [reconcile_eq]
    rfl
  · simp only [siftedAlice]
    rw [reconcile_eq]
    decide

/-- C5 amended.  On the notebook's seeded inputs the matching-basis indices
are `{0,1,2,4,6,7,9}`, the sifted Alice key is `[0,0,0,0,0,1,1]`, and after
consuming the equal first bit both final keys are `[0,0,0,0,1,1]` under
noiseless simulation, whatever the measurement draws. -/
theorem example_run_amended (u : ℕ → ℚ) (hu : ValidSource (exSource u)) :
    ((List.range 10).filter fun i => decide (exAliceBases i = exBobBases i)) =
        [0, 1, 2, 4, 6, 7, 9] ∧
      siftedAlice 10 (exSource u) =
        [false, false, false, false, false, true, true] ∧
      run 10 (exSource u) =
        Except.ok
          (RunResult.Secure [false, false, false, false, true, true]
              [false, false, false, false, true, true],
            [false, false, false, false, true, true],
            [false, false, false, false, true, true]) := by
  have hsa : siftedAlice 10 (exSource u) =
      [false, false, false, false, false, true, true] := by
    simp only [siftedAlice]
    rw [reconcile_eq]
    rfl
  refine ⟨by decide, hsa, ?_⟩
  rw [run, siftedBob_eq_siftedAlice 10 (exSource u) hu, hsa,
    checkStep_self _ (List.cons_ne_nil false _)]
  rfl

/-- Witness for the amended C5, with the all-zero measurement draw stream. -/
theorem example_run_amended_witness :
    ValidSource (exSource fun _ => 0) ∧
      (((List.range 10).filter fun i =>
            decide (exAliceBases i = exBobBases i)) =
          [0, 1, 2, 4, 6, 7, 9] ∧
        siftedAlice 10 (exSource fun _ => 0) =
          [false, false, false, false, false, true, true] ∧
        run 10 (exSource fun _ => 0) =
          Except.ok
            (RunResult.Secure [false, false, false, false, true, true]
                [false, false, false, false, true, true],
              [false, false, false, false, true, true],
              [false, false, false, false, true, true])) :=
  ⟨exSource_zero_valid, example_run_amended (fun _ => 0) exSource_zero_valid⟩

end BB84
